import Mathlib

/-!
Verification of the Library Management System (console front end `main.py`,
web front end `stream.py`) against its natural-language specification.

The data model and operations below are a shallow embedding of the Python
source.  Python dicts for books, members and borrow records become Lean
structures; the class-level mutable store `Library.data` becomes an explicit
`LibState` value threaded through the operations; Python exceptions and early
returns become explicit result types.  Timestamps and ids are opaque strings
(the code only ever stores and compares them).  Python integers are `Int`.
-/

namespace LMS

/-- A book record, as built by `add_book` in `main.py` (and `stream.py`):
keys `id`, `title`, `author`, `total_copies`, `available_copies`, `added_on`. -/
structure Book where
  id : String
  title : String
  author : String
  total_copies : Int
  available_copies : Int
  added_on : String
deriving DecidableEq

/-- A borrow entry, as built in `Library.borrow` (`main.py`) and in the
"Borrow Book" branch of `stream.py`: keys `book_id`, `title`, `borrow_on`. -/
structure BorrowRecord where
  book_id : String
  title : String
  borrow_on : String
deriving DecidableEq

/-- A member record with a definite borrowed list.  The console front end
stores the list under the key `borowed` and the web front end under
`borrowed`; each front end accesses its own key consistently, so one Lean
field models it for the circulation operations. -/
structure Member where
  id : String
  name : String
  email : String
  borrowed : List BorrowRecord
deriving DecidableEq

/-- The in-memory store `Library.data` / `data`: `{"books": [...], "members": [...]}`. -/
structure LibState where
  books : List Book
  members : List Member
deriving DecidableEq

/-- `[m for m in members if m['id'] == member_id]` followed by taking
element 0 when the filter result is non-empty. -/
def findFirstMember (ms : List Member) (mid : String) : Option Member :=
  (ms.filter (fun m => m.id == mid)).head?

/-- `[b for b in books if b['id'] == book_id]` followed by taking element 0. -/
def findFirstBook (bs : List Book) (bid : String) : Option Book :=
  (bs.filter (fun b => b.id == bid)).head?

/-- Python mutates the dict object returned by the filter in place; since the
filter's element 0 is the first list element with the given id, this is
in-place update of the first matching element. -/
def updateFirstBook (bs : List Book) (bid : String) (f : Book → Book) : List Book :=
  match bs with
  | [] => []
  | b :: rest => if b.id == bid then f b :: rest else b :: updateFirstBook rest bid f

/-- In-place update of the first member with the given id (Python aliasing). -/
def updateFirstMember (ms : List Member) (mid : String) (f : Member → Member) : List Member :=
  match ms with
  | [] => []
  | m :: rest => if m.id == mid then f m :: rest else m :: updateFirstMember rest mid f

/-- The failure outcomes of `Library.borrow` in `main.py`: the three early
`return`s ("no such Id exist", "soory no such id of book exist",
"sorry no books exist"). -/
inductive BorrowError
  | memberNotFound
  | bookNotFound
  | outOfStock
deriving DecidableEq

/-- `Library.borrow` of `main.py` (lines 91-119), with the member id, book id
and the `datetime.now()` timestamp as explicit inputs.  On success the first
member with `member_id` gets the new borrow entry appended and the first book
with `book_id` has `available_copies` decremented by 1; every failure path
returns before any mutation.  (The `stream.py` borrow branch only offers
books with `available_copies > 0` and then sets
`available_copies = max(0, available_copies - 1)`, which under that guard
equals the decrement modelled here.) -/
def borrow (s : LibState) (member_id book_id ts : String) : Except BorrowError LibState :=
  match findFirstMember s.members member_id with
  | none => .error .memberNotFound
  | some _ =>
    match findFirstBook s.books book_id with
    | none => .error .bookNotFound
    | some book =>
      if book.available_copies ≤ 0 then
        .error .outOfStock
      else
        let entry : BorrowRecord := ⟨book.id, book.title, ts⟩
        .ok { books := updateFirstBook s.books book_id
                (fun b => { b with available_copies := b.available_copies - 1 }),
              members := updateFirstMember s.members member_id
                (fun m => { m with borrowed := m.borrowed ++ [entry] }) }

/-- Python `list.pop(k)` index resolution on a list of length `n`:
`0 ≤ k < n` pops index `k`, `-n ≤ k < 0` pops index `n + k`, anything else
raises `IndexError` (here: `none`). -/
def pyPopIndex (n : Nat) (k : Int) : Option Nat :=
  if 0 ≤ k ∧ k < (n : Int) then some k.toNat
  else if -(n : Int) ≤ k ∧ k < 0 then some ((n : Int) + k).toNat
  else none

/-- The possible outcomes of `Library.return_book` in `main.py`.
`crashNameError` models the defective path: `int(...)` or `.pop(...)` raises
inside the `try`, the `except` block prints "invalid value " but neither
returns nor re-raises, execution falls through to
`selected['book_id']` where the local `selected` was never assigned, and the
resulting unhandled `NameError`/`UnboundLocalError` propagates out before any
mutation or `save_data` happens. -/
inductive ReturnResult
  | memberNotFound
  | nothingToReturn
  | crashNameError
  | ok (s : LibState)
deriving DecidableEq

/-- `Library.return_book` of `main.py` (lines 121-148).  The raw selection
input is `none` for a non-numeric string (so `int(...)` raises) and
`some choice` for the parsed integer.  A valid pop index removes the record
at that position; then the first book whose id equals the removed record's
`book_id`, if any, has `available_copies` incremented by 1 (no clamp); if no
book matches, the increment is skipped and only the removal and save happen. -/
def return_book (s : LibState) (member_id : String) (choiceInput : Option Int) : ReturnResult :=
  match findFirstMember s.members member_id with
  | none => .memberNotFound
  | some member =>
    if member.borrowed.isEmpty then .nothingToReturn
    else
      match choiceInput with
      | none => .crashNameError
      | some choice =>
        match pyPopIndex member.borrowed.length (choice - 1) with
        | none => .crashNameError
        | some idx =>
          match member.borrowed[idx]? with
          | none => .crashNameError
          | some selected =>
            let dropSel : Member → Member := fun m => { m with borrowed := m.borrowed.eraseIdx idx }
            let incAvail : Book → Book := fun b => { b with available_copies := b.available_copies + 1 }
            let s1 : LibState := { s with members := updateFirstMember s.members member_id dropSel }
            match findFirstBook s1.books selected.book_id with
            | none => .ok s1
            | some _ =>
              .ok { s1 with books := updateFirstBook s1.books selected.book_id incAvail }

/-! ### Identifier generation (`gen_id` in `main.py` / `stream.py`) -/

/-- `string.ascii_uppercase + string.digits`, the alphabet `random.choice`
draws from. -/
def idAlphabet : List Char := "ABCDEFGHIJKLMNOPQRSTUVWXYZ0123456789".toList

theorem idAlphabet_length : idAlphabet.length = 36 := by decide

/-- One call of `random.choice(string.ascii_uppercase + string.digits)`,
with the random draw made explicit as an index into the 36-char alphabet. -/
def pickChar (i : Fin 36) : Char := idAlphabet.get (Fin.cast idAlphabet_length.symm i)

/-- `gen_id` of `main.py` (lines 24-29): starts from the empty string and
appends five randomly chosen alphabet characters, then prepends
`pfx + "-"`.  The five random draws are explicit inputs. -/
def gen_id (pfx : String) (picks : Fin 5 → Fin 36) : String :=
  let random_id := (List.ofFn picks).foldl (fun acc i => acc.push (pickChar i)) ""
  pfx ++ "-" ++ random_id

/-! ### Catalog and membership operations -/

/-- `Library.add_book` (`main.py` lines 38-53), with the generated id, the
prompted title/author/copies and the timestamp as explicit inputs: appends
`{id, title, author, total_copies := copies, available_copies := copies, added_on}`. -/
def add_book (s : LibState) (id title author : String) (copies : Int) (ts : String) : LibState :=
  { s with books := s.books ++ [⟨id, title, author, copies, copies, ts⟩] }

/-- `Library.add_member` (`main.py` lines 64-77): appends a member with an
empty borrowed list. -/
def add_member (s : LibState) (id name email : String) : LibState :=
  { s with members := s.members ++ [⟨id, name, email, []⟩] }

/-! ### The step relation over the store

The console loop applies one operation per iteration; each operation either
mutates the store and saves, or leaves it untouched (all failure paths of
`borrow` return before mutating, and every failure path of `return_book` —
including the caught-exception-then-`NameError` crash — aborts before the
first mutation, since the failed `pop` itself raises before assigning). -/

/-- One user-level operation of the core, with all external inputs
(generated ids, prompted values, timestamps, the random selection) explicit. -/
inductive Op
  | addBook (id title author : String) (copies : Int) (ts : String)
  | addMember (id name email : String)
  | borrowOp (mid bid ts : String)
  | returnOp (mid : String) (choiceInput : Option Int)

/-- Effect of an operation on the store; failing operations leave it unchanged. -/
def applyOp (s : LibState) : Op → LibState
  | .addBook id title author copies ts => add_book s id title author copies ts
  | .addMember id name email => add_member s id name email
  | .borrowOp mid bid ts =>
      match borrow s mid bid ts with
      | .ok s1 => s1
      | .error _ => s
  | .returnOp mid choiceInput =>
      match return_book s mid choiceInput with
      | .ok s1 => s1
      | _ => s

/-- The proviso of the invariant claims: copies handed to `add_book` are
non-negative (the spec calls negative input a usage error rejected upstream). -/
def OpOK : Op → Prop
  | .addBook _ _ _ copies _ => 0 ≤ copies
  | _ => True

/-- States reachable from the empty store
`{"books": [], "members": []}` by the four core operations, with
non-negative copies passed to `add_book`.  The web front end's direct
copy-count editor is deliberately not an operation here. -/
inductive Reachable : LibState → Prop
  | empty : Reachable ⟨[], []⟩
  | step {s : LibState} {op : Op} : Reachable s → OpOK op → Reachable (applyOp s op)

/-! ### Loading and normalization (`load_data` in `stream.py`) -/

/-- A member as it sits in the persisted file: the borrowed list may be
stored under the current key `borrowed`, the legacy key `borowed`, both, or
neither (`none` = key absent from the dict). -/
structure RawMember where
  id : String
  name : String
  email : String
  borowed : Option (List BorrowRecord)
  borrowed : Option (List BorrowRecord)
deriving DecidableEq

/-- The parsed shape of the whole file. -/
structure RawData where
  books : List Book
  members : List RawMember
deriving DecidableEq

/-- The per-member body of the normalization loop in `load_data`
(`stream.py` lines 33-38): if `"borowed" in m and "borrowed" not in m`,
rename the key; then if `"borrowed"` is still missing, set it to `[]`. -/
def normalizeMember (m : RawMember) : RawMember :=
  let m1 : RawMember :=
    match m.borowed, m.borrowed with
    | some v, none => { m with borowed := none, borrowed := some v }
    | _, _ => m
  match m1.borrowed with
  | none => { m1 with borrowed := some [] }
  | some _ => m1

/-- The whole normalization loop: applied to every member, books untouched. -/
def normalizeData (d : RawData) : RawData :=
  { d with members := d.members.map normalizeMember }

/-- `default = {"books": [], "members": []}` in `load_data`. -/
def defaultData : RawData := ⟨[], []⟩

/-- The outcome of `json.loads` on the (non-empty, stripped) file text:
either a parsed document of the persisted shape, or any exception
(`malformed`).  The textual parser itself is external library code
(`json.loads`); only its outcome matters to `load_data`. -/
inductive ParseOutcome
  | ok (d : RawData)
  | malformed
deriving DecidableEq

/-- The case analysis `load_data` performs on the backing file: the file is
absent, present with whitespace-only content (`raw.strip()` falsy), or
present with non-empty content that parses with the given outcome. -/
inductive FileState
  | absent
  | blank
  | content (p : ParseOutcome)
deriving DecidableEq

/-- `load_data` of `stream.py` (lines 17-39): pick the parsed data or the
empty default, then run the normalization loop.  (In the `absent` case the
code also writes the default out; persistence side effects are not part of
the returned state.) -/
def load_data : FileState → RawData
  | .absent => normalizeData defaultData
  | .blank => normalizeData defaultData
  | .content (.ok d) => normalizeData d
  | .content .malformed => normalizeData defaultData

/-! ### Serialization (`save_data` / `load_data` round trip)

`save_data` writes `json.dumps(data, indent=4, default=str)` and `load_data`
reads it back through `json.loads`.  The textual JSON layer is library code;
the embedding works at the level of the JSON document tree, so the round
trip proved here is about the schema mapping (key names, nesting, list
order), assuming `json.loads` inverts `json.dumps` on document trees. -/

/-- A JSON document tree (the fragment these files use). -/
inductive Json
  | str (s : String)
  | num (n : Int)
  | arr (xs : List Json)
  | obj (fields : List (String × Json))

/-- Dict key lookup on a decoded JSON object. -/
def jGet (fields : List (String × Json)) (k : String) : Option Json :=
  ((fields.filter (fun kv => kv.1 == k)).head?).map (fun kv => kv.2)

def asStr : Json → Option String
  | .str v => some v
  | _ => none

def asNum : Json → Option Int
  | .num v => some v
  | _ => none

/-- How `json.dumps` lays out one borrow entry. -/
def encodeRecord (r : BorrowRecord) : Json :=
  .obj [("book_id", .str r.book_id), ("title", .str r.title), ("borrow_on", .str r.borrow_on)]

/-- How `json.dumps` lays out one book dict. -/
def encodeBook (b : Book) : Json :=
  .obj [("id", .str b.id), ("title", .str b.title), ("author", .str b.author),
        ("total_copies", .num b.total_copies), ("available_copies", .num b.available_copies),
        ("added_on", .str b.added_on)]

/-- How `json.dumps` lays out one member dict of the web front end's
in-memory state (borrowed list under the key `"borrowed"`). -/
def encodeMember (m : Member) : Json :=
  .obj [("id", .str m.id), ("name", .str m.name), ("email", .str m.email),
        ("borrowed", .arr (m.borrowed.map encodeRecord))]

/-- `save_data` of `stream.py` (lines 41-42), as the document tree written out. -/
def save_data (s : LibState) : Json :=
  .obj [("books", .arr (s.books.map encodeBook)),
        ("members", .arr (s.members.map encodeMember))]

def decodeRecord : Json → Option BorrowRecord
  | .obj fs =>
      match (jGet fs "book_id").bind asStr, (jGet fs "title").bind asStr,
            (jGet fs "borrow_on").bind asStr with
      | some bid, some t, some bo => some ⟨bid, t, bo⟩
      | _, _, _ => none
  | _ => none

def decodeBook : Json → Option Book
  | .obj fs =>
      match (jGet fs "id").bind asStr, (jGet fs "title").bind asStr,
            (jGet fs "author").bind asStr, (jGet fs "total_copies").bind asNum,
            (jGet fs "available_copies").bind asNum, (jGet fs "added_on").bind asStr with
      | some i, some t, some a, some tc, some ac, some ao => some ⟨i, t, a, tc, ac, ao⟩
      | _, _, _, _, _, _ => none
  | _ => none

/-- Decode every element of a JSON array, failing if any element fails
(the all-or-nothing behavior of parsing a homogeneous JSON list). -/
def decodeList {α : Type} (f : Json → Option α) : List Json → Option (List α)
  | [] => some []
  | j :: rest =>
      match f j, decodeList f rest with
      | some x, some xs => some (x :: xs)
      | _, _ => none

/-- Decode an optional borrowed-list key: absent key is `some none`,
present key with a well-formed list is `some (some l)`. -/
def decodeOptRecs (fs : List (String × Json)) (k : String) : Option (Option (List BorrowRecord)) :=
  match jGet fs k with
  | none => some none
  | some (.arr xs) => (decodeList decodeRecord xs).map some
  | some _ => none

def decodeRawMember : Json → Option RawMember
  | .obj fs =>
      match (jGet fs "id").bind asStr, (jGet fs "name").bind asStr,
            (jGet fs "email").bind asStr, decodeOptRecs fs "borowed",
            decodeOptRecs fs "borrowed" with
      | some i, some n, some e, some bw, some br => some ⟨i, n, e, bw, br⟩
      | _, _, _, _, _ => none
  | _ => none

def decodeRawData : Json → Option RawData
  | .obj fs =>
      match jGet fs "books", jGet fs "members" with
      | some (.arr bs), some (.arr ms) =>
          match decodeList decodeBook bs, decodeList decodeRawMember ms with
          | some books, some members => some ⟨books, members⟩
          | _, _ => none
      | _, _ => none
  | _ => none

/-- A normalized raw member read back as an in-memory member (after
`load_data`'s loop every member has a `borrowed` key). -/
def toMember (rm : RawMember) : Member :=
  ⟨rm.id, rm.name, rm.email, rm.borrowed.getD []⟩

/-- The full read path for one parsed document: decode, normalize, view as
in-memory state. -/
def loadState (j : Json) : Option LibState :=
  (decodeRawData j).map (fun d => ⟨d.books, (normalizeData d).members.map toMember⟩)

/-! ### Invariant machinery for the reachability claims -/

/-- Number of outstanding borrow records across all members that reference
the book id `bid`. -/
def countRecs (ms : List Member) (bid : String) : Nat :=
  (ms.map (fun m => (m.borrowed.filter (fun r => r.book_id == bid)).length)).sum

/-- Sum over all books of `total_copies - available_copies`. -/
def sumGap (bs : List Book) : Int :=
  (bs.map (fun b => b.total_copies - b.available_copies)).sum

/-- Total number of borrow records across all members. -/
def totalRecs (ms : List Member) : Nat :=
  (ms.map (fun m => m.borrowed.length)).sum

/-- Per-book accounting, walking the book list left to right with the set of
ids already seen.  Circulation only ever touches the *first* book carrying a
given id (both `borrow` and `return_book` take element 0 of the id filter),
so a book whose id already occurred keeps `available = total` forever, while
the first book with an id owes exactly the outstanding records for that id. -/
def BooksAccounted (ms : List Member) : List String → List Book → Prop
  | _, [] => True
  | seen, b :: rest =>
      (if b.id ∈ seen then b.available_copies = b.total_copies
       else b.available_copies + (countRecs ms b.id : Int) = b.total_copies)
      ∧ 0 ≤ b.available_copies
      ∧ BooksAccounted ms (b.id :: seen) rest

/-- Every outstanding borrow record references an id of some existing book
(books are never deleted by the core operations). -/
def RecsHaveBooks (s : LibState) : Prop :=
  ∀ m ∈ s.members, ∀ r ∈ m.borrowed, r.book_id ∈ s.books.map Book.id

/-- The conservation law of the spec. -/
def Conservation (s : LibState) : Prop :=
  sumGap s.books = (totalRecs s.members : Int)

/-- The combined inductive invariant of the core. -/
def Inv (s : LibState) : Prop :=
  BooksAccounted s.members [] s.books ∧ RecsHaveBooks s ∧ Conservation s

/-! ### Concrete states used by the witnesses -/

def bkDune : Book := ⟨"B-AAAAA", "Dune", "Herbert", 2, 1, "t0"⟩

def bkEmma : Book := ⟨"B-BBBBB", "Emma", "Austen", 3, 3, "t0"⟩

def recDune : BorrowRecord := ⟨"B-AAAAA", "Dune", "t1"⟩

def recEmma : BorrowRecord := ⟨"B-BBBBB", "Emma", "t2"⟩

def memAnn : Member := ⟨"M-11111", "Ann", "ann@mail", [recDune, recEmma]⟩

/-- A store with two books and one member holding two borrow records. -/
def sampleState : LibState := ⟨[bkDune, bkEmma], [memAnn]⟩

/-- The store after `add_book`, `add_member` and one `borrow` from empty. -/
def reachedState : LibState :=
  ⟨[⟨"B-CCCCC", "Dune", "Herbert", 2, 1, "t0"⟩],
   [⟨"M-22222", "Bob", "bob@mail", [⟨"B-CCCCC", "Dune", "t1"⟩]⟩]⟩

def memCarl : Member := ⟨"M-33333", "Carl", "carl@mail", [⟨"B-AAAAA", "Dune", "t1"⟩]⟩

/-- A store with one book and one member holding one borrow record. -/
def crashState : LibState := ⟨[bkDune], [memCarl]⟩

/-- A persisted member still carrying the legacy key `borowed` only. -/
def rawLegacy : RawMember := ⟨"M-44444", "Dora", "dora@mail", some [recDune], none⟩

/-- A persisted member carrying neither borrowed key. -/
def rawBare : RawMember := ⟨"M-55555", "Ed", "ed@mail", none, none⟩

/-- A parsed file with one legacy member and one member lacking both keys. -/
def rawDataEx : RawData := ⟨[bkDune], [rawLegacy, rawBare]⟩

/-! ### Lemmas about first-match lookup and in-place update -/

theorem findFirstMember_eq_none_iff {ms : List Member} {mid : String} :
    findFirstMember ms mid = none ↔ ∀ m ∈ ms, m.id ≠ mid := by
  induction ms with
  | nil => simp [findFirstMember]
  | cons m rest ih =>
      simp only [findFirstMember, List.filter_cons] at ih ⊢
      by_cases h : m.id = mid
      · simp [h]
      · simp only [h, beq_iff_eq, if_neg h]
        simp [ih, h]

theorem findFirstBook_eq_none_iff {bs : List Book} {bid : String} :
    findFirstBook bs bid = none ↔ ∀ b ∈ bs, b.id ≠ bid := by
  induction bs with
  | nil => simp [findFirstBook]
  | cons b rest ih =>
      simp only [findFirstBook, List.filter_cons] at ih ⊢
      by_cases h : b.id = bid
      · simp [h]
      · simp only [h, beq_iff_eq, if_neg h]
        simp [ih, h]

theorem findFirstMember_decomp {preM postM : List Member} {mem : Member} {mid : String}
    (hpre : ∀ m ∈ preM, m.id ≠ mid) (hid : mem.id = mid) :
    findFirstMember (preM ++ mem :: postM) mid = some mem := by
  induction preM with
  | nil => simp [findFirstMember, List.filter_cons, hid]
  | cons p rest ih =>
      have hp : p.id ≠ mid := hpre p (by simp)
      simp only [List.cons_append, findFirstMember, List.filter_cons, beq_iff_eq, if_neg hp]
      exact ih (fun m hm => hpre m (by simp [hm]))

theorem findFirstBook_decomp {pre post : List Book} {bk : Book} {bid : String}
    (hpre : ∀ b ∈ pre, b.id ≠ bid) (hid : bk.id = bid) :
    findFirstBook (pre ++ bk :: post) bid = some bk := by
  induction pre with
  | nil => simp [findFirstBook, List.filter_cons, hid]
  | cons p rest ih =>
      have hp : p.id ≠ bid := hpre p (by simp)
      simp only [List.cons_append, findFirstBook, List.filter_cons, beq_iff_eq, if_neg hp]
      exact ih (fun b hb => hpre b (by simp [hb]))

theorem updateFirstMember_decomp {preM postM : List Member} {mem : Member} {mid : String}
    (hpre : ∀ m ∈ preM, m.id ≠ mid) (hid : mem.id = mid) (f : Member → Member) :
    updateFirstMember (preM ++ mem :: postM) mid f = preM ++ f mem :: postM := by
  induction preM with
  | nil => simp [updateFirstMember, hid]
  | cons p rest ih =>
      have hp : p.id ≠ mid := hpre p (by simp)
      simp only [List.cons_append, updateFirstMember, beq_iff_eq, if_neg hp]
      exact congrArg (p :: ·) (ih (fun m hm => hpre m (by simp [hm])))

theorem updateFirstBook_decomp {pre post : List Book} {bk : Book} {bid : String}
    (hpre : ∀ b ∈ pre, b.id ≠ bid) (hid : bk.id = bid) (f : Book → Book) :
    updateFirstBook (pre ++ bk :: post) bid f = pre ++ f bk :: post := by
  induction pre with
  | nil => simp [updateFirstBook, hid]
  | cons p rest ih =>
      have hp : p.id ≠ bid := hpre p (by simp)
      simp only [List.cons_append, updateFirstBook, beq_iff_eq, if_neg hp]
      exact congrArg (p :: ·) (ih (fun b hb => hpre b (by simp [hb])))

theorem findFirstMember_decomp_of_eq {ms : List Member} {mid : String} {mem : Member}
    (h : findFirstMember ms mid = some mem) :
    mem.id = mid ∧ ∃ preM postM, ms = preM ++ mem :: postM ∧ ∀ m ∈ preM, m.id ≠ mid := by
  induction ms with
  | nil => simp [findFirstMember] at h
  | cons m rest ih =>
      simp only [findFirstMember, List.filter_cons] at h
      by_cases hm : m.id = mid
      · simp only [beq_iff_eq, if_pos hm, List.head?_cons, Option.some.injEq] at h
        subst h
        exact ⟨hm, [], rest, rfl, by simp⟩
      · simp only [beq_iff_eq, if_neg hm] at h
        obtain ⟨hid, preM, postM, hsplit, hpre⟩ := ih h
        exact ⟨hid, m :: preM, postM, by simp [hsplit], by
          intro x hx
          rcases List.mem_cons.mp hx with rfl | hx'
          · exact hm
          · exact hpre x hx'⟩

theorem findFirstBook_decomp_of_eq {bs : List Book} {bid : String} {bk : Book}
    (h : findFirstBook bs bid = some bk) :
    bk.id = bid ∧ ∃ pre post, bs = pre ++ bk :: post ∧ ∀ b ∈ pre, b.id ≠ bid := by
  induction bs with
  | nil => simp [findFirstBook] at h
  | cons b rest ih =>
      simp only [findFirstBook, List.filter_cons] at h
      by_cases hb : b.id = bid
      · simp only [beq_iff_eq, if_pos hb, List.head?_cons, Option.some.injEq] at h
        subst h
        exact ⟨hb, [], rest, rfl, by simp⟩
      · simp only [beq_iff_eq, if_neg hb] at h
        obtain ⟨hid, pre, post, hsplit, hpre⟩ := ih h
        exact ⟨hid, b :: pre, post, by simp [hsplit], by
          intro x hx
          rcases List.mem_cons.mp hx with rfl | hx'
          · exact hb
          · exact hpre x hx'⟩

theorem findFirstBook_isSome_of_mem {bs : List Book} {bid : String}
    (h : bid ∈ bs.map Book.id) : ∃ bk, findFirstBook bs bid = some bk := by
  cases hf : findFirstBook bs bid with
  | some bk => exact ⟨bk, rfl⟩
  | none =>
      obtain ⟨b, hb, hbid⟩ := List.mem_map.mp h
      exact absurd hbid (findFirstBook_eq_none_iff.mp hf b hb)

theorem findFirstMember_isSome_of_mem {ms : List Member} {mid : String} {m : Member}
    (hm : m ∈ ms) (hid : m.id = mid) : ∃ mem, findFirstMember ms mid = some mem := by
  cases hf : findFirstMember ms mid with
  | some mem => exact ⟨mem, rfl⟩
  | none => exact absurd hid (findFirstMember_eq_none_iff.mp hf m hm)

theorem mem_updateFirstMember {ms : List Member} {mid : String} {f : Member → Member} {x : Member}
    (h : x ∈ updateFirstMember ms mid f) : x ∈ ms ∨ ∃ m, m ∈ ms ∧ x = f m := by
  induction ms with
  | nil => simp [updateFirstMember] at h
  | cons m rest ih =>
      simp only [updateFirstMember] at h
      by_cases hm : m.id = mid
      · simp only [beq_iff_eq, if_pos hm, List.mem_cons] at h
        rcases h with rfl | h'
        · exact Or.inr ⟨m, by simp, rfl⟩
        · exact Or.inl (by simp [h'])
      · simp only [beq_iff_eq, if_neg hm, List.mem_cons] at h
        rcases h with rfl | h'
        · exact Or.inl (by simp)
        · rcases ih h' with hx | ⟨mm, hmm, hfx⟩
          · exact Or.inl (by simp [hx])
          · exact Or.inr ⟨mm, by simp [hmm], hfx⟩

theorem map_id_updateFirstBook (f : Book → Book) {bs : List Book} {bid : String}
    (hf : ∀ b, (f b).id = b.id) :
    (updateFirstBook bs bid f).map Book.id = bs.map Book.id := by
  induction bs with
  | nil => rfl
  | cons b rest ih =>
      simp only [updateFirstBook]
      by_cases hb : b.id = bid
      · simp [beq_iff_eq, hb, hf]
      · simp [beq_iff_eq, hb, ih]

/-! ### Counting lemmas -/

theorem countRecs_append (xs ys : List Member) (bid : String) :
    countRecs (xs ++ ys) bid = countRecs xs bid + countRecs ys bid := by
  simp [countRecs, List.sum_append]

theorem countRecs_cons (m : Member) (ms : List Member) (bid : String) :
    countRecs (m :: ms) bid =
      (m.borrowed.filter (fun r => r.book_id == bid)).length + countRecs ms bid := by
  simp [countRecs]

theorem totalRecs_append (xs ys : List Member) :
    totalRecs (xs ++ ys) = totalRecs xs + totalRecs ys := by
  simp [totalRecs, List.sum_append]

theorem totalRecs_cons (m : Member) (ms : List Member) :
    totalRecs (m :: ms) = m.borrowed.length + totalRecs ms := by
  simp [totalRecs]

theorem sumGap_append (xs ys : List Book) :
    sumGap (xs ++ ys) = sumGap xs + sumGap ys := by
  simp [sumGap, List.sum_append]

theorem sumGap_cons (b : Book) (bs : List Book) :
    sumGap (b :: bs) = (b.total_copies - b.available_copies) + sumGap bs := by
  simp [sumGap]

/-- Erasing the element at a valid index removes exactly one element from
the filtered sublist when that element passes the filter. -/
theorem length_filter_eraseIdx {α : Type} {l : List α} {idx : Nat} {r : α}
    (h : l[idx]? = some r) (p : α → Bool) :
    ((l.eraseIdx idx).filter p).length + (if p r then 1 else 0) = (l.filter p).length := by
  induction l generalizing idx with
  | nil => simp at h
  | cons a rest ih =>
      cases idx with
      | zero =>
          simp only [List.getElem?_cons_zero, Option.some.injEq] at h
          rw [List.eraseIdx_cons_zero, List.filter_cons, ← h]
          by_cases hp : p a <;> simp [hp]
      | succ n =>
          simp only [List.getElem?_cons_succ] at h
          have hrec := ih h
          rw [List.eraseIdx_cons_succ, List.filter_cons, List.filter_cons]
          by_cases hr : p r <;> by_cases hp : p a <;>
            simp [hr, hp] at hrec ⊢ <;> omega

/-- If every outstanding record references an existing book id, an id that
no book carries has no outstanding records. -/
theorem countRecs_eq_zero {s : LibState} (hrb : RecsHaveBooks s) {x : String}
    (hx : x ∉ s.books.map Book.id) : countRecs s.members x = 0 := by
  unfold countRecs
  apply List.sum_eq_zero
  intro n hn
  obtain ⟨m, hm, rfl⟩ := List.mem_map.mp hn
  rw [List.length_eq_zero, List.filter_eq_nil_iff]
  intro r hr
  simp only [beq_iff_eq]
  intro hcontra
  exact hx (hcontra ▸ hrb m hm r hr)

/-! ### Preservation lemmas for the per-book accounting -/

theorem booksAccounted_congr_counts {ms ms' : List Member} :
    ∀ (seen : List String) (bs : List Book),
      (∀ x, x ∉ seen → countRecs ms' x = countRecs ms x) →
      BooksAccounted ms seen bs → BooksAccounted ms' seen bs := by
  intro seen bs
  induction bs generalizing seen with
  | nil => intro _ _; trivial
  | cons b rest ih =>
      intro hcount hba
      obtain ⟨h1, h2, h3⟩ := hba
      refine ⟨?_, h2, ih _ (fun x hx => hcount x (fun hxs => hx (List.mem_cons_of_mem _ hxs))) h3⟩
      by_cases hb : b.id ∈ seen
      · simpa [hb] using h1
      · simp only [if_neg hb] at h1 ⊢
        rw [hcount b.id hb]
        exact h1

theorem booksAccounted_bounds {ms : List Member} :
    ∀ (seen : List String) (bs : List Book), BooksAccounted ms seen bs →
      ∀ b ∈ bs, 0 ≤ b.available_copies ∧ b.available_copies ≤ b.total_copies := by
  intro seen bs
  induction bs generalizing seen with
  | nil => simp
  | cons b rest ih =>
      intro hba x hx
      obtain ⟨h1, h2, h3⟩ := hba
      rcases List.mem_cons.mp hx with rfl | hx'
      · refine ⟨h2, ?_⟩
        by_cases hb : x.id ∈ seen
        · simp only [if_pos hb] at h1
          omega
        · simp only [if_neg hb] at h1
          have hc : (0:Int) ≤ (countRecs ms x.id : Int) := Int.ofNat_nonneg _
          omega
      · exact ih _ h3 x hx'

theorem booksAccounted_update_borrow {ms ms' : List Member} {bid : String} :
    ∀ (seen : List String) (bs : List Book),
      bid ∉ seen →
      (∀ x, x ≠ bid → countRecs ms' x = countRecs ms x) →
      countRecs ms' bid = countRecs ms bid + 1 →
      (∀ bk, findFirstBook bs bid = some bk → 0 < bk.available_copies) →
      BooksAccounted ms seen bs →
      BooksAccounted ms' seen
        (updateFirstBook bs bid (fun b => { b with available_copies := b.available_copies - 1 })) := by
  intro seen bs
  induction bs generalizing seen with
  | nil => intro _ _ _ _ _; trivial
  | cons b rest ih =>
      intro hseen hother hbid havail hba
      obtain ⟨h1, h2, h3⟩ := hba
      simp only [updateFirstBook]
      by_cases hb : b.id = bid
      · simp only [beq_iff_eq, if_pos hb]
        have hfind : findFirstBook (b :: rest) bid = some b := by
          simp [findFirstBook, List.filter_cons, hb]
        have hpos : 0 < b.available_copies := havail b hfind
        have hbseen : b.id ∉ seen := hb ▸ hseen
        simp only [if_neg hbseen] at h1
        refine ⟨?_, ?_, ?_⟩
        · show (if b.id ∈ seen then b.available_copies - 1 = b.total_copies
            else b.available_copies - 1 + (countRecs ms' b.id : Int) = b.total_copies)
          simp only [if_neg hbseen]
          rw [hb] at h1 ⊢
          rw [hbid]
          push_cast at h1 ⊢
          omega
        · show 0 ≤ b.available_copies - 1
          omega
        · exact booksAccounted_congr_counts _ _
            (fun x hx => hother x (fun hxb => hx (hxb ▸ hb ▸ List.mem_cons_self _ _))) h3
      · simp only [beq_iff_eq, if_neg hb]
        have havail' : ∀ bk, findFirstBook rest bid = some bk → 0 < bk.available_copies := by
          intro bk hbk
          apply havail
          simpa [findFirstBook, List.filter_cons, hb] using hbk
        refine ⟨?_, h2, ?_⟩
        · by_cases hbs : b.id ∈ seen
          · simpa [hbs] using h1
          · simp only [if_neg hbs] at h1 ⊢
            rw [hother b.id hb]
            exact h1
        · exact ih _ (by simp [hseen, Ne.symm hb]) hother hbid havail' h3

theorem booksAccounted_update_return {ms ms' : List Member} {bid : String} :
    ∀ (seen : List String) (bs : List Book),
      bid ∉ seen →
      (∀ x, x ≠ bid → countRecs ms' x = countRecs ms x) →
      countRecs ms' bid + 1 = countRecs ms bid →
      BooksAccounted ms seen bs →
      BooksAccounted ms' seen
        (updateFirstBook bs bid (fun b => { b with available_copies := b.available_copies + 1 })) := by
  intro seen bs
  induction bs generalizing seen with
  | nil => intro _ _ _ _; trivial
  | cons b rest ih =>
      intro hseen hother hbid hba
      obtain ⟨h1, h2, h3⟩ := hba
      simp only [updateFirstBook]
      by_cases hb : b.id = bid
      · simp only [beq_iff_eq, if_pos hb]
        have hbseen : b.id ∉ seen := hb ▸ hseen
        simp only [if_neg hbseen] at h1
        refine ⟨?_, ?_, ?_⟩
        · show (if b.id ∈ seen then b.available_copies + 1 = b.total_copies
            else b.available_copies + 1 + (countRecs ms' b.id : Int) = b.total_copies)
          simp only [if_neg hbseen]
          rw [hb] at h1 ⊢
          omega
        · show 0 ≤ b.available_copies + 1
          omega
        · exact booksAccounted_congr_counts _ _
            (fun x hx => hother x (fun hxb => hx (hxb ▸ hb ▸ List.mem_cons_self _ _))) h3
      · simp only [beq_iff_eq, if_neg hb]
        refine ⟨?_, h2, ?_⟩
        · by_cases hbs : b.id ∈ seen
          · simpa [hbs] using h1
          · simp only [if_neg hbs] at h1 ⊢
            rw [hother b.id hb]
            exact h1
        · exact ih _ (by simp [hseen, Ne.symm hb]) hother hbid h3

theorem booksAccounted_addBook {ms : List Member} {newb : Book} :
    ∀ (seen : List String) (bs : List Book),
      BooksAccounted ms seen bs →
      0 ≤ newb.available_copies →
      newb.available_copies = newb.total_copies →
      (newb.id ∉ seen → newb.id ∉ bs.map Book.id → countRecs ms newb.id = 0) →
      BooksAccounted ms seen (bs ++ [newb]) := by
  intro seen bs
  induction bs generalizing seen with
  | nil =>
      intro _ h0 heq hzero
      refine ⟨?_, h0, trivial⟩
      by_cases hb : newb.id ∈ seen
      · simp [hb, heq]
      · simp only [if_neg hb]
        rw [hzero hb (by simp)]
        simpa using heq
  | cons b rest ih =>
      intro hba h0 heq hzero
      obtain ⟨h1, h2, h3⟩ := hba
      refine ⟨h1, h2, ?_⟩
      apply ih _ h3 h0 heq
      intro hs hm
      apply hzero
      · exact fun hcontra => hs (List.mem_cons_of_mem _ hcontra)
      · intro hcontra
        obtain ⟨x, hx, hxid⟩ := List.mem_map.mp hcontra
        rcases List.mem_cons.mp hx with rfl | hx'
        · exact hs (by rw [← hxid]; exact List.mem_cons_self _ _)
        · exact hm (List.mem_map.mpr ⟨x, hx', hxid⟩)

/-! ### Shape of successful borrow and return -/

theorem borrow_ok_shape {s s' : LibState} {mid bid ts : String}
    (h : borrow s mid bid ts = .ok s') :
    ∃ book, findFirstBook s.books bid = some book ∧ 0 < book.available_copies ∧
      (∃ mem, findFirstMember s.members mid = some mem) ∧
      s' = ⟨updateFirstBook s.books bid
              (fun b => { b with available_copies := b.available_copies - 1 }),
            updateFirstMember s.members mid
              (fun m => { m with borrowed := m.borrowed ++ [⟨book.id, book.title, ts⟩] })⟩ := by
  unfold borrow at h
  split at h
  · simp at h
  next mem hm =>
    split at h
    · simp at h
    next book hbk =>
      split at h
      · simp at h
      next hav =>
        simp only [Except.ok.injEq] at h
        exact ⟨book, hbk, by omega, ⟨mem, hm⟩, h.symm⟩

theorem return_book_ok_shape {s s' : LibState} {mid : String} {choiceInput : Option Int}
    (h : return_book s mid choiceInput = .ok s') :
    ∃ mem choice idx selected,
      findFirstMember s.members mid = some mem ∧
      choiceInput = some choice ∧
      pyPopIndex mem.borrowed.length (choice - 1) = some idx ∧
      mem.borrowed[idx]? = some selected ∧
      ((findFirstBook s.books selected.book_id = none ∧
        s' = ⟨s.books, updateFirstMember s.members mid
                (fun m => { m with borrowed := m.borrowed.eraseIdx idx })⟩) ∨
       (∃ bk, findFirstBook s.books selected.book_id = some bk ∧
        s' = ⟨updateFirstBook s.books selected.book_id
                (fun b => { b with available_copies := b.available_copies + 1 }),
              updateFirstMember s.members mid
                (fun m => { m with borrowed := m.borrowed.eraseIdx idx })⟩)) := by
  unfold return_book at h
  split at h
  · simp at h
  next mem hm =>
    split at h
    · simp at h
    next hne =>
      split at h
      · simp at h
      next _o choice =>
        split at h
        · simp at h
        next idx hidx =>
          split at h
          · simp at h
          next selected hsel =>
            dsimp only at h
            split at h
            next hnone =>
              simp only [ReturnResult.ok.injEq] at h
              exact ⟨mem, choice, idx, selected, hm, rfl, hidx, hsel, Or.inl ⟨hnone, h.symm⟩⟩
            next bk hbk =>
              simp only [ReturnResult.ok.injEq] at h
              exact ⟨mem, choice, idx, selected, hm, rfl, hidx, hsel, Or.inr ⟨bk, hbk, h.symm⟩⟩

/-! ### Effect of the member update on the counts -/

theorem countRecs_borrow_update (entry : BorrowRecord) {ms : List Member} {mid : String}
    {mem : Member} (hfind : findFirstMember ms mid = some mem) :
    ∀ x, countRecs (updateFirstMember ms mid
        (fun m => { m with borrowed := m.borrowed ++ [entry] })) x
      = countRecs ms x + (if entry.book_id = x then 1 else 0) := by
  obtain ⟨hid, preM, postM, hsplit, hpre⟩ := findFirstMember_decomp_of_eq hfind
  subst hsplit
  intro x
  rw [updateFirstMember_decomp hpre hid, countRecs_append, countRecs_append,
    countRecs_cons, countRecs_cons]
  by_cases hx : entry.book_id = x
  all_goals simp [List.filter_append, List.filter_cons, beq_iff_eq, hx]
  all_goals omega

theorem countRecs_return_update {ms : List Member} {mid : String} {mem : Member}
    {idx : Nat} {selected : BorrowRecord} (hfind : findFirstMember ms mid = some mem)
    (hsel : mem.borrowed[idx]? = some selected) :
    ∀ x, countRecs (updateFirstMember ms mid
        (fun m => { m with borrowed := m.borrowed.eraseIdx idx })) x
        + (if selected.book_id = x then 1 else 0) = countRecs ms x := by
  obtain ⟨hid, preM, postM, hsplit, hpre⟩ := findFirstMember_decomp_of_eq hfind
  subst hsplit
  intro x
  rw [updateFirstMember_decomp hpre hid, countRecs_append, countRecs_append,
    countRecs_cons, countRecs_cons]
  have hlen := length_filter_eraseIdx hsel (fun r => r.book_id == x)
  by_cases hx : selected.book_id = x <;>
    simp [beq_iff_eq, hx] at hlen ⊢ <;> omega

theorem totalRecs_borrow_update {ms : List Member} {mid : String} {mem : Member}
    {entry : BorrowRecord} (hfind : findFirstMember ms mid = some mem) :
    totalRecs (updateFirstMember ms mid
        (fun m => { m with borrowed := m.borrowed ++ [entry] })) = totalRecs ms + 1 := by
  obtain ⟨hid, preM, postM, hsplit, hpre⟩ := findFirstMember_decomp_of_eq hfind
  subst hsplit
  rw [updateFirstMember_decomp hpre hid, totalRecs_append, totalRecs_append,
    totalRecs_cons, totalRecs_cons]
  simp
  omega

theorem totalRecs_return_update {ms : List Member} {mid : String} {mem : Member}
    {idx : Nat} (hfind : findFirstMember ms mid = some mem)
    (hidx : idx < mem.borrowed.length) :
    totalRecs (updateFirstMember ms mid
        (fun m => { m with borrowed := m.borrowed.eraseIdx idx })) + 1 = totalRecs ms := by
  obtain ⟨hid, preM, postM, hsplit, hpre⟩ := findFirstMember_decomp_of_eq hfind
  subst hsplit
  rw [updateFirstMember_decomp hpre hid, totalRecs_append, totalRecs_append,
    totalRecs_cons, totalRecs_cons]
  rw [List.length_eraseIdx]
  simp only [if_pos hidx]
  omega

theorem sumGap_update {bs : List Book} {bid : String} {bk : Book}
    (hfind : findFirstBook bs bid = some bk) (f : Book → Book) :
    sumGap (updateFirstBook bs bid f) =
      sumGap bs + ((f bk).total_copies - (f bk).available_copies)
        - (bk.total_copies - bk.available_copies) := by
  obtain ⟨hid, pre, post, hsplit, hpre⟩ := findFirstBook_decomp_of_eq hfind
  subst hsplit
  rw [updateFirstBook_decomp hpre hid, sumGap_append, sumGap_append, sumGap_cons, sumGap_cons]
  ring

/-! ### Preservation of the invariant by every operation -/

theorem inv_applyOp {s : LibState} {op : Op} (hInv : Inv s) (hok : OpOK op) :
    Inv (applyOp s op) := by
  obtain ⟨hBA, hRB, hC⟩ := hInv
  cases op with
  | addBook id title author copies ts =>
      have hok' : (0:Int) ≤ copies := hok
      refine ⟨?_, ?_, ?_⟩
      · show BooksAccounted s.members [] (s.books ++ [⟨id, title, author, copies, copies, ts⟩])
        exact booksAccounted_addBook _ _ hBA hok' rfl (fun _ hnm => countRecs_eq_zero hRB hnm)
      · intro m hm r hr
        show r.book_id ∈ (s.books ++ [(⟨id, title, author, copies, copies, ts⟩ : Book)]).map Book.id
        rw [List.map_append]
        exact List.mem_append_left _ (hRB m hm r hr)
      · show sumGap (s.books ++ [⟨id, title, author, copies, copies, ts⟩])
          = (totalRecs s.members : Int)
        rw [sumGap_append]
        simpa [sumGap] using hC
  | addMember id name email =>
      have hcount : ∀ x, countRecs (s.members ++ [⟨id, name, email, []⟩]) x
          = countRecs s.members x := by
        intro x
        rw [countRecs_append]
        simp [countRecs]
      refine ⟨?_, ?_, ?_⟩
      · exact booksAccounted_congr_counts _ _ (fun x _ => hcount x) hBA
      · intro m hm r hr
        rcases List.mem_append.mp hm with hm' | hm'
        · exact hRB m hm' r hr
        · simp only [List.mem_singleton] at hm'
          subst hm'
          simp at hr
      · show sumGap s.books = (totalRecs (s.members ++ [⟨id, name, email, []⟩]) : Int)
        have hC' : sumGap s.books = (totalRecs s.members : Int) := hC
        have h0 : totalRecs [(⟨id, name, email, []⟩ : Member)] = 0 := rfl
        rw [totalRecs_append, h0]
        simpa using hC'
  | borrowOp mid bid ts =>
      cases hres : borrow s mid bid ts with
      | error e =>
          simp only [applyOp, hres]
          exact ⟨hBA, hRB, hC⟩
      | ok s1 =>
          simp only [applyOp, hres]
          obtain ⟨book, hfind, hpos, ⟨mem, hmem⟩, hs1⟩ := borrow_ok_shape hres
          subst hs1
          have hbid : book.id = bid := (findFirstBook_decomp_of_eq hfind).1
          have hcounts := countRecs_borrow_update ⟨book.id, book.title, ts⟩ hmem
          refine ⟨?_, ?_, ?_⟩
          · apply booksAccounted_update_borrow [] s.books (by simp) ?_ ?_ ?_ hBA
            · intro x hx
              rw [hcounts x, if_neg (by simpa [hbid] using hx.symm)]
              omega
            · have hcb := hcounts bid
              rw [if_pos (show (⟨book.id, book.title, ts⟩ : BorrowRecord).book_id = bid from hbid)] at hcb
              exact hcb
            · intro bk hbk
              rw [hfind] at hbk
              cases hbk
              exact hpos
          · intro m' hm' r hr
            show r.book_id ∈ (updateFirstBook s.books bid
              (fun b => { b with available_copies := b.available_copies - 1 })).map Book.id
            rw [map_id_updateFirstBook
              (fun b => { b with available_copies := b.available_copies - 1 }) (fun b => rfl)]
            rcases mem_updateFirstMember hm' with hold | ⟨m0, hm0, rfl⟩
            · exact hRB m' hold r hr
            · rcases List.mem_append.mp hr with hr' | hr'
              · exact hRB m0 hm0 r hr'
              · simp only [List.mem_singleton] at hr'
                subst hr'
                have hbmem : book ∈ s.books := by
                  obtain ⟨_, pre, post, hbooks, _⟩ := findFirstBook_decomp_of_eq hfind
                  rw [hbooks]
                  simp
                exact List.mem_map.mpr ⟨book, hbmem, rfl⟩
          · show sumGap (updateFirstBook s.books bid
                (fun b => { b with available_copies := b.available_copies - 1 }))
              = (totalRecs (updateFirstMember s.members mid
                  (fun m => { m with borrowed := m.borrowed ++ [⟨book.id, book.title, ts⟩] })) : Int)
            have hC' : sumGap s.books = (totalRecs s.members : Int) := hC
            rw [sumGap_update hfind, totalRecs_borrow_update hmem]
            dsimp only
            push_cast
            omega
  | returnOp mid choiceInput =>
      cases hres : return_book s mid choiceInput with
      | memberNotFound =>
          simp only [applyOp, hres]
          exact ⟨hBA, hRB, hC⟩
      | nothingToReturn =>
          simp only [applyOp, hres]
          exact ⟨hBA, hRB, hC⟩
      | crashNameError =>
          simp only [applyOp, hres]
          exact ⟨hBA, hRB, hC⟩
      | ok s1 =>
          simp only [applyOp, hres]
          obtain ⟨mem, choice, idx, selected, hmem, hc, hpi, hsel, hcase⟩ :=
            return_book_ok_shape hres
          have hselmem : selected ∈ mem.borrowed := List.getElem?_mem hsel
          have hmemin : mem ∈ s.members := by
            obtain ⟨_, preM, postM, hsplit, _⟩ := findFirstMember_decomp_of_eq hmem
            rw [hsplit]
            simp
          have hbookid : selected.book_id ∈ s.books.map Book.id := hRB mem hmemin selected hselmem
          rcases hcase with ⟨hnone, _⟩ | ⟨bk, hbk, hs1⟩
          · obtain ⟨bk, hbk⟩ := findFirstBook_isSome_of_mem hbookid
            rw [hnone] at hbk
            cases hbk
          · subst hs1
            have hcounts := countRecs_return_update hmem hsel
            have hidxlt : idx < mem.borrowed.length := (List.getElem?_eq_some.mp hsel).1
            refine ⟨?_, ?_, ?_⟩
            · apply booksAccounted_update_return [] s.books (by simp) ?_ ?_ hBA
              · intro x hx
                have hcx := hcounts x
                rw [if_neg (fun hxx => hx hxx.symm)] at hcx
                simpa using hcx
              · have hcx := hcounts selected.book_id
                rw [if_pos rfl] at hcx
                exact hcx
            · intro m' hm' r hr
              show r.book_id ∈ (updateFirstBook s.books selected.book_id
                (fun b => { b with available_copies := b.available_copies + 1 })).map Book.id
              rw [map_id_updateFirstBook
                (fun b => { b with available_copies := b.available_copies + 1 }) (fun b => rfl)]
              rcases mem_updateFirstMember hm' with hold | ⟨m0, hm0, rfl⟩
              · exact hRB m' hold r hr
              · exact hRB m0 hm0 r (List.eraseIdx_subset _ _ hr)
            · show sumGap (updateFirstBook s.books selected.book_id
                  (fun b => { b with available_copies := b.available_copies + 1 }))
                = (totalRecs (updateFirstMember s.members mid
                    (fun m => { m with borrowed := m.borrowed.eraseIdx idx })) : Int)
              have hC' : sumGap s.books = (totalRecs s.members : Int) := hC
              rw [sumGap_update hbk]
              dsimp only
              have htr := totalRecs_return_update hmem hidxlt
              omega

/-- Every reachable state satisfies the combined invariant. -/
theorem reachable_inv {s : LibState} (h : Reachable s) : Inv s := by
  induction h with
  | empty =>
      refine ⟨trivial, ?_, ?_⟩
      · intro m hm
        simp at hm
      · show sumGap [] = (totalRecs [] : Int)
        simp [sumGap, totalRecs]
  | step hr hok ih => exact inv_applyOp ih hok

/-! ### Identifier generation lemmas -/

theorem foldl_push_data (l : List (Fin 36)) (acc : String) :
    (l.foldl (fun a i => a.push (pickChar i)) acc).data = acc.data ++ l.map pickChar := by
  induction l generalizing acc with
  | nil => simp
  | cons i rest ih => simp [List.foldl_cons, ih, String.data_push]

theorem pickChar_mem (i : Fin 36) : pickChar i ∈ idAlphabet := by
  unfold pickChar
  exact List.get_mem idAlphabet _ _

theorem idAlphabet_chars : ∀ c ∈ idAlphabet, ('A' ≤ c ∧ c ≤ 'Z') ∨ ('0' ≤ c ∧ c ≤ '9') := by
  decide

/-! ### The claims -/

/-- Claim C9: `gen_id(p)` returns `p + "-" +` five characters, each drawn
from `{A-Z, 0-9}`; it is a pure function of its inputs (the five random
draws are its only non-deterministic input, made explicit here). -/
theorem gen_id_shape (pfx : String) (picks : Fin 5 → Fin 36) :
    ∃ cs : List Char, cs.length = 5 ∧
      (∀ c ∈ cs, ('A' ≤ c ∧ c ≤ 'Z') ∨ ('0' ≤ c ∧ c ≤ '9')) ∧
      gen_id pfx picks = pfx ++ "-" ++ String.mk cs := by
  refine ⟨(List.ofFn picks).map pickChar, by simp, ?_, ?_⟩
  · intro c hc
    obtain ⟨i, _, rfl⟩ := List.mem_map.mp hc
    exact idAlphabet_chars _ (pickChar_mem i)
  · apply String.ext
    simp [gen_id, String.data_append, foldl_push_data]

/-- Claim C7: a backing file whose non-empty content fails to parse does not
raise out of `load_data`; the state falls back to the empty default
`{"books": [], "members": []}`. -/
theorem load_malformed_defaults :
    load_data (FileState.content ParseOutcome.malformed) = ⟨[], []⟩ := rfl

/-- Claim C8: in the console `return_book`, a non-numeric selection and a
numeric selection greater than the borrowed list length both reach the
fall-through path: the exception is caught and printed, but execution then
reads the never-assigned `selected`, an unhandled NameError — no typed
outcome and no state update or save (the member here has exactly one
borrow record, and the numeric selection is 2). -/
theorem return_book_falls_through_to_name_error :
    return_book crashState "M-33333" none = ReturnResult.crashNameError ∧
    return_book crashState "M-33333" (some 2) = ReturnResult.crashNameError := by
  exact ⟨rfl, rfl⟩

/-- Claim C4 (refuting the as-stated claim): on a member with two borrow
records, `choice_index = 0` lies outside `[1, 2]` yet `return_book` does not
fail with InvalidSelection and does not leave the store unmodified: Python's
`pop(0 - 1) = pop(-1)` removes the LAST record, and the matching book's
`available_copies` is incremented and the store saved. -/
theorem return_book_choice_zero_pops_last :
    return_book sampleState "M-11111" (some 0) =
      ReturnResult.ok ⟨[bkDune, ⟨"B-BBBBB", "Emma", "Austen", 3, 4, "t0"⟩],
        [⟨"M-11111", "Ann", "ann@mail", [recDune]⟩]⟩ := rfl

/-- Claim C3: `borrow` fails with NotFound(member) when no member carries the
id, with NotFound(book) when the member exists but no book carries the id,
and with OutOfStock when the first book carrying the id has
`available_copies ≤ 0`; every failure leaves the store unchanged; on success
exactly one borrow record (book id, title snapshot, timestamp) is appended to
the matched member and the matched book's `available_copies` drops by exactly
1, with every other book and member untouched. -/
theorem borrow_cases (s : LibState) (mid bid ts : String) :
    ((∀ m ∈ s.members, m.id ≠ mid) → borrow s mid bid ts = .error .memberNotFound) ∧
    ((∃ m ∈ s.members, m.id = mid) → (∀ b ∈ s.books, b.id ≠ bid) →
      borrow s mid bid ts = .error .bookNotFound) ∧
    (∀ e, borrow s mid bid ts = .error e → applyOp s (.borrowOp mid bid ts) = s) ∧
    (∀ pre bk post, s.books = pre ++ bk :: post → (∀ b ∈ pre, b.id ≠ bid) → bk.id = bid →
      bk.available_copies ≤ 0 → (∃ m ∈ s.members, m.id = mid) →
      borrow s mid bid ts = .error .outOfStock) ∧
    (∀ preM mem postM pre bk post,
      s.members = preM ++ mem :: postM → (∀ m ∈ preM, m.id ≠ mid) → mem.id = mid →
      s.books = pre ++ bk :: post → (∀ b ∈ pre, b.id ≠ bid) → bk.id = bid →
      0 < bk.available_copies →
      borrow s mid bid ts = .ok
        ⟨pre ++ { bk with available_copies := bk.available_copies - 1 } :: post,
         preM ++ { mem with borrowed := mem.borrowed ++ [⟨bk.id, bk.title, ts⟩] } :: postM⟩) := by
  refine ⟨?_, ?_, ?_, ?_, ?_⟩
  · intro h
    simp [borrow, findFirstMember_eq_none_iff.mpr h]
  · intro h1 h2
    obtain ⟨m, hm, hid⟩ := h1
    obtain ⟨mem, hmem⟩ := findFirstMember_isSome_of_mem hm hid
    simp [borrow, hmem, findFirstBook_eq_none_iff.mpr h2]
  · intro e he
    simp [applyOp, he]
  · intro pre bk post hbooks hpreB hbid hav hm
    obtain ⟨m, hmm, hid⟩ := hm
    obtain ⟨mem, hmem⟩ := findFirstMember_isSome_of_mem hmm hid
    have hfb : findFirstBook s.books bid = some bk := by
      rw [hbooks]
      exact findFirstBook_decomp hpreB hbid
    unfold borrow
    rw [hmem, hfb]
    dsimp only
    rw [if_pos hav]
  · intro preM mem postM pre bk post hms hpreM hmid hbooks hpreB hbid hpos
    have h1 : findFirstMember s.members mid = some mem := by
      rw [hms]
      exact findFirstMember_decomp hpreM hmid
    have h2 : findFirstBook s.books bid = some bk := by
      rw [hbooks]
      exact findFirstBook_decomp hpreB hbid
    unfold borrow
    rw [h1, h2]
    dsimp only
    rw [if_neg (show ¬ bk.available_copies ≤ 0 from by omega)]
    rw [hms, hbooks, updateFirstBook_decomp hpreB hbid, updateFirstMember_decomp hpreM hmid]

/-- Witness for C3: with the sample store, an unknown member id fails with
NotFound(member), and a successful borrow of "B-AAAAA" by the one member
appends exactly the snapshot record and decrements that book. -/
theorem borrow_cases_witness :
    borrow sampleState "M-99999" "B-AAAAA" "t9" = .error .memberNotFound ∧
    borrow sampleState "M-11111" "B-AAAAA" "t9" = .ok
      ⟨[⟨"B-AAAAA", "Dune", "Herbert", 2, 0, "t0"⟩, bkEmma],
       [⟨"M-11111", "Ann", "ann@mail", [recDune, recEmma, ⟨"B-AAAAA", "Dune", "t9"⟩]⟩]⟩ := by
  constructor
  · exact (borrow_cases sampleState "M-99999" "B-AAAAA" "t9").1 (by decide)
  · exact (borrow_cases sampleState "M-11111" "B-AAAAA" "t9").2.2.2.2
      [] memAnn [] [] bkDune [bkEmma] rfl (by simp) rfl rfl (by simp) rfl (by decide)

/-- Claim C5: a successful return with `choice_index ∈ [1, length]` removes
the borrow record at that 1-based position (by position, not by content);
then, if some book carries the record's book_id, the first such book's
`available_copies` is incremented by exactly 1 with no clamp against
`total_copies`, and if no book carries it the increment is skipped while the
record is still removed; every other book and member is untouched. -/
theorem return_book_success_spec (s : LibState) (mid : String) (choice : Int)
    (preM : List Member) (mem : Member) (postM : List Member)
    (hms : s.members = preM ++ mem :: postM)
    (hpreM : ∀ m ∈ preM, m.id ≠ mid) (hmid : mem.id = mid)
    (h1 : 1 ≤ choice) (h2 : choice ≤ (mem.borrowed.length : Int)) :
    ∃ selected, mem.borrowed[(choice - 1).toNat]? = some selected ∧
      ((∀ b ∈ s.books, b.id ≠ selected.book_id) →
        return_book s mid (some choice) = .ok
          ⟨s.books,
           preM ++ { mem with borrowed := mem.borrowed.eraseIdx (choice - 1).toNat } :: postM⟩) ∧
      (∀ pre bk post, s.books = pre ++ bk :: post →
        (∀ b ∈ pre, b.id ≠ selected.book_id) → bk.id = selected.book_id →
        return_book s mid (some choice) = .ok
          ⟨pre ++ { bk with available_copies := bk.available_copies + 1 } :: post,
           preM ++ { mem with borrowed := mem.borrowed.eraseIdx (choice - 1).toNat } :: postM⟩) := by
  have hfm : findFirstMember s.members mid = some mem := by
    rw [hms]
    exact findFirstMember_decomp hpreM hmid
  have hnil : mem.borrowed ≠ [] := by
    intro hn
    rw [hn] at h2
    simp at h2
    omega
  have hne' : ¬ (mem.borrowed.isEmpty = true) := by
    simpa [List.isEmpty_iff] using hnil
  have hlt : (choice - 1).toNat < mem.borrowed.length := by omega
  have hpi : pyPopIndex mem.borrowed.length (choice - 1) = some (choice - 1).toNat := by
    unfold pyPopIndex
    rw [if_pos ⟨by omega, by omega⟩]
  obtain ⟨sel, hsel⟩ : ∃ r, mem.borrowed[(choice - 1).toNat]? = some r := by
    rw [List.getElem?_eq_getElem hlt]
    exact ⟨_, rfl⟩
  refine ⟨sel, hsel, ?_, ?_⟩
  · intro hnob
    have hnone : findFirstBook s.books sel.book_id = none := findFirstBook_eq_none_iff.mpr hnob
    unfold return_book
    rw [hfm]
    dsimp only
    rw [if_neg hne', hpi]
    dsimp only
    rw [hsel]
    dsimp only
    rw [hnone]
    dsimp only
    rw [hms, updateFirstMember_decomp hpreM hmid]
  · intro pre bk post hbooks hpreB hbid
    have hfb : findFirstBook s.books sel.book_id = some bk := by
      rw [hbooks]
      exact findFirstBook_decomp hpreB hbid
    unfold return_book
    rw [hfm]
    dsimp only
    rw [if_neg hne', hpi]
    dsimp only
    rw [hsel]
    dsimp only
    rw [hfb]
    dsimp only
    rw [hms, updateFirstMember_decomp hpreM hmid, hbooks, updateFirstBook_decomp hpreB hbid]

/-- Witness for C5: returning position 1 of Ann's two records removes exactly
`recDune` and increments "B-AAAAA" from 1 to 2 copies. -/
theorem return_book_success_spec_witness :
    return_book sampleState "M-11111" (some 1) = ReturnResult.ok
      ⟨[⟨"B-AAAAA", "Dune", "Herbert", 2, 2, "t0"⟩, bkEmma],
       [⟨"M-11111", "Ann", "ann@mail", [recEmma]⟩]⟩ := by
  obtain ⟨sel, hsel, hA, hB⟩ := return_book_success_spec sampleState "M-11111" 1 [] memAnn []
    rfl (by simp) rfl (by decide) (by decide)
  have hselval : sel = recDune := by
    have : some recDune = some sel := by
      rw [← hsel]
      rfl
    exact (Option.some.injEq _ _ ▸ this).symm
  subst hselval
  exact hB [] bkDune [bkEmma] rfl (by simp) rfl

/-- `reachedState` really is reached from the empty store by
add_book(2 copies), add_member, borrow. -/
theorem reachable_reachedState : Reachable reachedState := by
  have h0 : Reachable (⟨[], []⟩ : LibState) := Reachable.empty
  have h1 : Reachable (applyOp ⟨[], []⟩ (Op.addBook "B-CCCCC" "Dune" "Herbert" 2 "t0")) :=
    Reachable.step h0 (show (0:Int) ≤ 2 by decide)
  have h2 : Reachable (applyOp (applyOp ⟨[], []⟩ (Op.addBook "B-CCCCC" "Dune" "Herbert" 2 "t0"))
      (Op.addMember "M-22222" "Bob" "bob@mail")) :=
    Reachable.step h1 trivial
  have h3 : Reachable (applyOp (applyOp (applyOp ⟨[], []⟩
      (Op.addBook "B-CCCCC" "Dune" "Herbert" 2 "t0"))
      (Op.addMember "M-22222" "Bob" "bob@mail")) (Op.borrowOp "M-22222" "B-CCCCC" "t1")) :=
    Reachable.step h2 trivial
  have heq : applyOp (applyOp (applyOp ⟨[], []⟩
      (Op.addBook "B-CCCCC" "Dune" "Herbert" 2 "t0"))
      (Op.addMember "M-22222" "Bob" "bob@mail")) (Op.borrowOp "M-22222" "B-CCCCC" "t1")
      = reachedState := rfl
  exact heq ▸ h3

/-- Claim C1: in every state reachable from the empty store by
add_book/add_member/borrow/return with non-negative copies (the web front
end's unchecked direct-edit path is not among the modelled operations),
every book satisfies `0 ≤ available_copies ≤ total_copies`. -/
theorem availability_bounds_reachable {s : LibState} (h : Reachable s) :
    ∀ b ∈ s.books, 0 ≤ b.available_copies ∧ b.available_copies ≤ b.total_copies :=
  booksAccounted_bounds [] s.books (reachable_inv h).1

/-- Witness for C1 on the concrete reachable state: the one book there has
`0 ≤ 1 ≤ 2`. -/
theorem availability_bounds_reachable_witness :
    0 ≤ (⟨"B-CCCCC", "Dune", "Herbert", 2, 1, "t0"⟩ : Book).available_copies ∧
    (⟨"B-CCCCC", "Dune", "Herbert", 2, 1, "t0"⟩ : Book).available_copies ≤
      (⟨"B-CCCCC", "Dune", "Herbert", 2, 1, "t0"⟩ : Book).total_copies :=
  availability_bounds_reachable reachable_reachedState
    ⟨"B-CCCCC", "Dune", "Herbert", 2, 1, "t0"⟩ (by simp [reachedState])

/-- Claim C2: conservation — in every state reachable from the empty store by
the four core operations, the sum over books of
`total_copies − available_copies` equals the total number of borrow records
across all members. -/
theorem conservation_reachable {s : LibState} (h : Reachable s) :
    (s.books.map (fun b => b.total_copies - b.available_copies)).sum
      = (((s.members.map (fun m => m.borrowed.length)).sum : Nat) : Int) :=
  (reachable_inv h).2.2

/-- Witness for C2 on the concrete reachable state: gap 2 − 1 = 1 record. -/
theorem conservation_reachable_witness :
    (reachedState.books.map (fun b => b.total_copies - b.available_copies)).sum
      = (((reachedState.members.map (fun m => m.borrowed.length)).sum : Nat) : Int) :=
  conservation_reachable reachable_reachedState

/-- Claim C6: after `load_data` every member of the in-memory state has a
`borrowed` field; the loaded members are exactly the parsed members run
through the normalization, which renames a legacy `borowed` key when
`borrowed` is absent and defaults `borrowed` to the empty list when both
keys are absent. -/
theorem load_normalizes_members (fs : FileState) :
    (∀ m ∈ (load_data fs).members, m.borrowed.isSome) ∧
    (∀ d, fs = FileState.content (ParseOutcome.ok d) →
      (load_data fs).members = d.members.map normalizeMember) ∧
    (∀ rm : RawMember, ∀ v, rm.borowed = some v → rm.borrowed = none →
      (normalizeMember rm).borrowed = some v) ∧
    (∀ rm : RawMember, rm.borowed = none → rm.borrowed = none →
      (normalizeMember rm).borrowed = some []) := by
  refine ⟨?_, ?_, ?_, ?_⟩
  · intro m hm
    have hex : ∃ ms : List RawMember, (load_data fs).members = ms.map normalizeMember := by
      cases fs with
      | absent => exact ⟨[], rfl⟩
      | blank => exact ⟨[], rfl⟩
      | content p =>
          cases p with
          | ok d => exact ⟨d.members, rfl⟩
          | malformed => exact ⟨[], rfl⟩
    obtain ⟨ms, hms⟩ := hex
    rw [hms] at hm
    obtain ⟨rm, _, rfl⟩ := List.mem_map.mp hm
    cases hbw : rm.borowed <;> cases hbr : rm.borrowed <;> simp [normalizeMember, hbw, hbr]
  · intro d hd
    subst hd
    rfl
  · intro rm v hbw hbr
    simp [normalizeMember, hbw, hbr]
  · intro rm hbw hbr
    simp [normalizeMember, hbw, hbr]

/-- Witness for C6: loading the sample parsed file maps normalization over
its two members; Dora's legacy list is renamed, Ed gets the empty default. -/
theorem load_normalizes_members_witness :
    (load_data (FileState.content (ParseOutcome.ok rawDataEx))).members
      = rawDataEx.members.map normalizeMember ∧
    (normalizeMember rawLegacy).borrowed = some [recDune] ∧
    (normalizeMember rawBare).borrowed = some [] := by
  refine ⟨(load_normalizes_members (FileState.content (ParseOutcome.ok rawDataEx))).2.1
      rawDataEx rfl, ?_, ?_⟩
  · exact (load_normalizes_members (FileState.content (ParseOutcome.ok rawDataEx))).2.2.1
      rawLegacy [recDune] rfl rfl
  · exact (load_normalizes_members (FileState.content (ParseOutcome.ok rawDataEx))).2.2.2
      rawBare rfl rfl

/-! ### Round-trip lemmas -/

theorem decodeList_map {α γ : Type} (g : α → γ) {enc : α → Json} {dec : Json → Option γ}
    (h : ∀ x, dec (enc x) = some (g x)) :
    ∀ l : List α, decodeList dec (l.map enc) = some (l.map g) := by
  intro l
  induction l with
  | nil => rfl
  | cons x xs ih => simp [decodeList, h, ih]

theorem decodeRecord_encodeRecord (r : BorrowRecord) :
    decodeRecord (encodeRecord r) = some r := rfl

theorem decodeBook_encodeBook (b : Book) : decodeBook (encodeBook b) = some b := rfl

theorem decodeRawMember_encodeMember (m : Member) :
    decodeRawMember (encodeMember m) = some ⟨m.id, m.name, m.email, none, some m.borrowed⟩ := by
  have h1 : decodeRawMember (encodeMember m) =
      match (some m.id), (some m.name), (some m.email),
            (some (none : Option (List BorrowRecord))),
            (decodeList decodeRecord (m.borrowed.map encodeRecord)).map (fun l => some l) with
      | some i, some n, some e, some bw, some br => some ⟨i, n, e, bw, br⟩
      | _, _, _, _, _ => none := rfl
  rw [h1, decodeList_map (fun r => r) decodeRecord_encodeRecord]
  simp

/-- Claim C10: serializing the in-memory state (the web front end's shape,
where every member carries a `borrowed` list) and reading the document back
through decode-plus-normalization reproduces the state field for field,
preserving the order of books, members and each borrowed list. -/
theorem save_load_round_trip (s : LibState) : loadState (save_data s) = some s := by
  have hbooks : decodeList decodeBook (s.books.map encodeBook) = some s.books := by
    simpa using decodeList_map (fun b => b) decodeBook_encodeBook s.books
  have hmembers : decodeList decodeRawMember (s.members.map encodeMember)
      = some (s.members.map
          (fun m => (⟨m.id, m.name, m.email, none, some m.borrowed⟩ : RawMember))) :=
    decodeList_map _ decodeRawMember_encodeMember s.members
  have hd : decodeRawData (save_data s) =
      match decodeList decodeBook (s.books.map encodeBook),
            decodeList decodeRawMember (s.members.map encodeMember) with
      | some books, some members => some ⟨books, members⟩
      | _, _ => none := rfl
  have hpt : ∀ m : Member,
      toMember (normalizeMember ⟨m.id, m.name, m.email, none, some m.borrowed⟩) = m :=
    fun _ => rfl
  have hcomp : (toMember ∘ normalizeMember ∘ fun m : Member =>
      (⟨m.id, m.name, m.email, none, some m.borrowed⟩ : RawMember)) = fun m => m :=
    funext hpt
  unfold loadState
  rw [hd, hbooks, hmembers]
  simp only [Option.map_some']
  simp only [normalizeData, List.map_map]
  rw [hcomp]
  simp

end LMS
